import Mathlib

/-
Verification of the Plumbing++ library (`plumbing.hpp`): a bounded blocking
FIFO channel (`Pipe<T>`), an input-iterator consumer view (`Sink<T>`), and
the pipeline connector (`connect` / `operator>>`).

The channel is embedded as a state structure mirroring the C++ data members
(`fifo_`, `write_`, `read_`, `open_`).  Each member function is translated
to a pure function on that state; an operation that would block (its wait
loop's condition holds) is modelled by returning `none`.  Concurrency is
modelled by interleaved traces of operations (`run`): a schedule in which a
blocked operation occurs simply has no successful run, exactly as the
blocked thread would not complete the call.
-/

set_option maxHeartbeats 1000000

namespace Plumbing

/-- State of `Plumbing::Pipe<T>`: the circular buffer of optional slots
(`std::vector<boost::optional<T>> fifo_`), the write and read cursors, and
the (otherwise unused) `open_` flag. -/
structure Pipe (T : Type) where
  fifo : List (Option T)
  write : Nat
  read : Nat
  open_ : Bool

namespace Pipe

variable {T : Type}

/-- Translation of `Pipe::writeHeadroom`:
`(write_ < read_ ? read_ - write_ : (read_ + fifo_.size()) - write_) - 1`,
computed over `int` as in the source. -/
def writeHeadroom (p : Pipe T) : Int :=
  (if p.write < p.read then (p.read : Int) - (p.write : Int)
   else ((p.read : Int) + (p.fifo.length : Int)) - (p.write : Int)) - 1

/-- Translation of `Pipe::readHeadroom`:
`read_ <= write_ ? write_ - read_ : (write_ + fifo_.size()) - read_`. -/
def readHeadroom (p : Pipe T) : Int :=
  if p.read ≤ p.write then (p.write : Int) - (p.read : Int)
  else ((p.write : Int) + (p.fifo.length : Int)) - (p.read : Int)

/-- Translation of `Pipe::incrementWrite`: `write_ = (write_ + 1) % fifo_.size()`. -/
def incrementWrite (p : Pipe T) : Pipe T :=
  { p with write := (p.write + 1) % p.fifo.length }

/-- Translation of `Pipe::incrementRead`: `read_ = (read_ + 1) % fifo_.size()`. -/
def incrementRead (p : Pipe T) : Pipe T :=
  { p with read := (p.read + 1) % p.fifo.length }

/-- Common body of `enqueue` and `close`: wait while `!writeHeadroom()`
(modelled as `none` when the call would block), store `x` in slot `write_`,
advance the write cursor. -/
def pushSlot (p : Pipe T) (x : Option T) : Option (Pipe T) :=
  if p.writeHeadroom = 0 then none
  else some (incrementWrite { p with fifo := p.fifo.set p.write x })

/-- Translation of `Pipe::enqueue`: wait for write headroom, then
`fifo_[write_] = e; incrementWrite();`. -/
def enqueue (p : Pipe T) (e : T) : Option (Pipe T) :=
  if p.writeHeadroom = 0 then none
  else some (incrementWrite { p with fifo := p.fifo.set p.write (some e) })

/-- Translation of `Pipe::close`: wait for write headroom, then
`fifo_[write_] = boost::optional<T>(boost::none); incrementWrite();`. -/
def close (p : Pipe T) : Option (Pipe T) :=
  if p.writeHeadroom = 0 then none
  else some (incrementWrite { p with fifo := p.fifo.set p.write none })

/-- Translation of `Pipe::isOpen`: wait for read headroom, then
`return fifo_[read_];` (the `boost::optional` converted to `bool`).  The
state component of the result records that the call leaves the pipe
unchanged. -/
def isOpen (p : Pipe T) : Option (Bool × Pipe T) :=
  if p.readHeadroom = 0 then none
  else some ((p.fifo.getD p.read none).isSome, p)

/-- Translation of `Pipe::dequeue`: wait for read headroom, then
`T const& e = *fifo_[read_]; incrementRead();` and return `e`.  The
returned `Option T` is the content of the slot: `none` means the closed
sentinel was dereferenced (a caller error in the source). -/
def dequeue (p : Pipe T) : Option (Option T × Pipe T) :=
  if p.readHeadroom = 0 then none
  else some (p.fifo.getD p.read none, incrementRead p)

/-- Translation of the constructor `Pipe(std::size_t fifoSize)`:
`fifo_(fifoSize), write_(0), read_(0), open_(true)` guarded by
`assert(fifoSize >= 2)` (modelled as rejection: `none`).  A
default-constructed `boost::optional` slot is empty (`none`). -/
def init (T : Type) (fifoSize : Nat) : Option (Pipe T) :=
  if 2 ≤ fifoSize then some ⟨List.replicate fifoSize none, 0, 0, true⟩ else none

/-- Well-formedness of a pipe state: capacity at least 2 (constructor
contract) and both cursors within the buffer. -/
abbrev WF (p : Pipe T) : Prop :=
  2 ≤ p.fifo.length ∧ p.write < p.fifo.length ∧ p.read < p.fifo.length

/-- Number of live (written, not yet consumed) slots: the modular
difference of the cursors. -/
def liveN (p : Pipe T) : Nat :=
  (p.write + p.fifo.length - p.read) % p.fifo.length

/-- Abstraction function: the logical queue contents, read-side first —
the `liveN p` slots starting at the read cursor. -/
def contents (p : Pipe T) : List (Option T) :=
  (List.range p.liveN).map (fun i => p.fifo.getD ((p.read + i) % p.fifo.length) none)

end Pipe

/-- One channel operation of an interleaved schedule. -/
inductive Act (T : Type) where
  | push (v : T)
  | close
  | pop
  | query

/-- Run a schedule of operations against a pipe, collecting the values
returned by the pops (`none` = the closed sentinel was dequeued).  The run
fails (`none`) when an operation would block forever in that schedule. -/
def run {T : Type} : Pipe T → List (Act T) → Option (Pipe T × List (Option T))
  | p, [] => some (p, [])
  | p, Act.push v :: rest =>
    match p.enqueue v with
    | none => none
    | some q => run q rest
  | p, Act.close :: rest =>
    match p.close with
    | none => none
    | some q => run q rest
  | p, Act.pop :: rest =>
    match p.dequeue with
    | none => none
    | some (v, q) =>
      match run q rest with
      | none => none
      | some (st, outs) => some (st, v :: outs)
  | p, Act.query :: rest =>
    match p.isOpen with
    | none => none
    | some _ => run p rest

/-- The sequence a schedule writes into the channel: pushed values as
`some v`, each `close` as the sentinel `none`. -/
def pushedOf {T : Type} : List (Act T) → List (Option T)
  | [] => []
  | Act.push v :: rest => some v :: pushedOf rest
  | Act.close :: rest => none :: pushedOf rest
  | Act.pop :: rest => pushedOf rest
  | Act.query :: rest => pushedOf rest

/-- Push a list of values in order (each push must not block). -/
def pushAll {T : Type} : Pipe T → List T → Option (Pipe T)
  | p, [] => some p
  | p, v :: vs =>
    match p.enqueue v with
    | none => none
    | some q => pushAll q vs

/-- The consumer's "has more / take next" protocol (the `Sink`-driven
loop: compare with the end iterator — which calls `isOpen` — and while it
says open, dequeue).  Fuel bounds the recursion; a blocked call or a
dereferenced sentinel yields `none`. -/
def drain {T : Type} : Nat → Pipe T → Option (List T × Pipe T)
  | 0, _ => none
  | fuel + 1, p =>
    match p.isOpen with
    | none => none
    | some (false, q) => some ([], q)
    | some (true, q) =>
      match q.dequeue with
      | none => none
      | some (none, _) => none
      | some (some v, r) =>
        match drain fuel r with
        | none => none
        | some (vs, s) => some (v :: vs, s)

/-- A `Sink<T>` handle: the identity of the shared pipe it points to
(`none` models the default-constructed end iterator's null `pipe_`).  A
heap `Nat → Pipe T` gives each identity its current state, so that pointer
comparison and state are kept distinct, as in the source. -/
abbrev SinkH : Type := Option Nat

/-- Translation of `Sink::operator==`: pointer-equal handles compare
equal; otherwise the null handle (if any) is swapped into second position
and the result is `!(b || a->isOpen())` — `false` outright when both are
non-null, else the negation of `isOpen` on the non-null side.  `none`
models a blocked `isOpen` call.  The `(none, none)` arm is unreachable
(pointer equality already returned). -/
def sinkEq {T : Type} (heap : Nat → Pipe T) (a b : SinkH) : Option Bool :=
  if a = b then some true
  else
    match (if a = none then (b, a) else (a, b)) with
    | (_, some _) => some false
    | (some i, none) => (Pipe.isOpen (heap i)).map (fun x => !x.1)
    | (none, none) => some true

/-- Translation of `Sink::operator++()` (pre-increment): `return *this;` — a noop. -/
def sinkInc (s : SinkH) : SinkH := s

/-- Translation of `Sink::operator++(int)` (post-increment): `return *this;` — a noop. -/
def sinkIncPost (s : SinkH) : SinkH := s

/-- Translation of `Sink::operator*`: `return pipe_->dequeue();`.  The
heap is updated with the pipe's new state; dereferencing the end iterator
(null `pipe_`) is undefined behaviour, modelled as `none`. -/
def sinkStar {T : Type} (heap : Nat → Pipe T) (s : SinkH) :
    Option (Option T × (Nat → Pipe T)) :=
  match s with
  | none => none
  | some i =>
    match Pipe.dequeue (heap i) with
    | none => none
    | some (v, q) => some (v, Function.update heap i q)

/-- A code for a C++ type: `void` or some non-void type (numbered). -/
inductive Ty where
  | void
  | base (code : Nat)
deriving DecidableEq

/-- The shape of a `connect` result: `Sink<t>` or `std::future<void>`. -/
inductive Monadic where
  | sink (t : Ty)
  | futureVoid
deriving DecidableEq

/-- Translation of `detail::connect_traits`' `monadic_type`: the base case
for `void` is `std::future<void>`, the base case for any other type `T` is
`Sink<T>`, and the recursive case applies the first function's type action
and folds on. -/
def connect_traits_monadic : Ty → List (Ty → Ty) → Monadic
  | Ty.void, [] => Monadic.futureVoid
  | t, [] => Monadic.sink t
  | t, f :: fs => connect_traits_monadic (f t) fs

/-- Translation of `detail::connect_traits`' `return_type`: the fold of
the functions' type actions over the element type. -/
def connect_traits_return : Ty → List (Ty → Ty) → Ty
  | t, [] => t
  | t, f :: fs => connect_traits_return (f t) fs

/-- The single-function result-shape rule of the spec: a `void` result is
a completion handle, any other result a channel-backed view. -/
def monadicOf : Ty → Monadic
  | Ty.void => Monadic.futureVoid
  | t => Monadic.sink t

/-- The loop of `detail::connect_impl<void>::connect`'s worker:
`for (e : input) func(e);` — the ordered record of the effect calls the
completion handle waits on. -/
def voidWorkerRun {A E : Type} : List A → (A → E) → List E
  | [], _ => []
  | e :: rest, f => f e :: voidWorkerRun rest f

/-- The loop of `detail::connect_impl<Output>::connect`'s worker:
`for (e : input) pipe->enqueue(func(e)); pipe->close();` — the ordered
sequence of values the worker pushes into the fresh channel, i.e. the
stream the returned `Sink` delivers. -/
def connectList {A B : Type} : List A → (A → B) → List B
  | [], _ => []
  | e :: rest, f => f e :: connectList rest f

/-- A non-empty chain of composable stage functions `f1, …, fn`. -/
inductive FnChain : Type → Type → Type 1 where
  | one : {A B : Type} → (A → B) → FnChain A B
  | more : {A B C : Type} → (A → B) → FnChain B C → FnChain A C

/-- Translation of the variadic `connect` overload: the single-function
case runs one stage; the multi-function case is literally
`connect( connect(input, func), func2, funcs... )`. -/
def connectMany : {A B : Type} → List A → FnChain A B → List B
  | _, _, input, FnChain.one f => connectList input f
  | _, _, input, FnChain.more f rest => connectMany (connectList input f) rest

/-- Plain function composition of a chain, left to right. -/
def chainApply : {A B : Type} → FnChain A B → A → B
  | _, _, FnChain.one f => f
  | _, _, FnChain.more f rest => fun a => chainApply rest (f a)

/-- Translation of `operator>>`: `return connect(input, func);`. -/
def opConnect {A B : Type} (input : List A) (f : A → B) : List B :=
  connectList input f

end Plumbing

namespace Plumbing

namespace Pipe

variable {T : Type}

theorem liveN_lt {p : Pipe T} (h : WF p) : p.liveN < p.fifo.length :=
  Nat.mod_lt _ (by omega)

theorem liveN_eq_if {p : Pipe T} (h : WF p) :
    p.liveN = if p.read ≤ p.write then p.write - p.read
              else p.write + p.fifo.length - p.read := by
  obtain ⟨h2, hw, hr⟩ := h
  unfold liveN
  split
  · have he : p.write + p.fifo.length - p.read = (p.write - p.read) + p.fifo.length := by
      omega
    rw [he, Nat.add_mod_right]
    exact Nat.mod_eq_of_lt (by omega)
  · exact Nat.mod_eq_of_lt (by omega)

theorem readHeadroom_eq {p : Pipe T} (h : WF p) :
    p.readHeadroom = (p.liveN : Int) := by
  rw [liveN_eq_if h]
  obtain ⟨h2, hw, hr⟩ := h
  unfold readHeadroom
  split <;> omega

theorem writeHeadroom_eq {p : Pipe T} (h : WF p) :
    p.writeHeadroom = (p.fifo.length : Int) - 1 - (p.liveN : Int) := by
  rw [liveN_eq_if h]
  obtain ⟨h2, hw, hr⟩ := h
  unfold writeHeadroom
  split <;> split <;> omega

theorem write_eq {p : Pipe T} (h : WF p) :
    p.write = (p.read + p.liveN) % p.fifo.length := by
  rw [liveN_eq_if h]
  obtain ⟨h2, hw, hr⟩ := h
  split
  · have he : p.read + (p.write - p.read) = p.write := by omega
    rw [he, Nat.mod_eq_of_lt hw]
  · have he : p.read + (p.write + p.fifo.length - p.read) = p.write + p.fifo.length := by
      omega
    rw [he, Nat.add_mod_right, Nat.mod_eq_of_lt hw]

theorem addModInj {n r i j : Nat} (hi : i < n) (hj : j < n)
    (h : (r + i) % n = (r + j) % n) : i = j := by
  have h1 : Nat.ModEq n (r + i) (r + j) := h
  have h2 : Nat.ModEq n i j := Nat.ModEq.add_left_cancel' r h1
  have h3 : i % n = j % n := h2
  rwa [Nat.mod_eq_of_lt hi, Nat.mod_eq_of_lt hj] at h3

theorem liveN_unique {p : Pipe T} {k : Nat} (h : WF p) (hk : k < p.fifo.length)
    (hw : p.write = (p.read + k) % p.fifo.length) : p.liveN = k := by
  have h1 := write_eq h
  exact addModInj (liveN_lt h) hk (h1 ▸ hw)

theorem getD_set_ne {α : Type} (l : List α) (a d : α) :
    ∀ i j, i ≠ j → (l.set i a).getD j d = l.getD j d := by
  intro i j hij
  simp [List.getD, List.getElem?_set_ne hij]

theorem getD_set_self {α : Type} (l : List α) (a d : α) :
    ∀ i, i < l.length → (l.set i a).getD i d = a := by
  intro i hi
  simp [List.getD, List.getElem?_set_self, hi]

theorem map_range_congr {β : Type} (f g : Nat → β) :
    ∀ k : Nat, (∀ i, i < k → f i = g i) → (List.range k).map f = (List.range k).map g := by
  intro k h
  apply List.map_congr_left
  intro a ha
  exact h a (List.mem_range.mp ha)

theorem contents_length {p : Pipe T} : (contents p).length = p.liveN := by
  simp [contents]

theorem contents_eq_nil_iff {p : Pipe T} : contents p = [] ↔ p.liveN = 0 := by
  constructor
  · intro h
    have := congrArg List.length h
    simpa [contents_length] using this
  · intro h
    simp [contents, h]

end Pipe

end Plumbing

namespace Plumbing

namespace Pipe

variable {T : Type}

theorem enqueue_eq_pushSlot (p : Pipe T) (e : T) : p.enqueue e = pushSlot p (some e) := rfl

theorem close_eq_pushSlot (p : Pipe T) : p.close = pushSlot p none := rfl

theorem pushSlot_none_iff {p : Pipe T} (h : WF p) (x : Option T) :
    pushSlot p x = none ↔ p.liveN = p.fifo.length - 1 := by
  have hw := writeHeadroom_eq h
  have hl := liveN_lt h
  have h2 := h.1
  unfold pushSlot
  split
  · simp only [true_iff]
    omega
  · simp only [reduceCtorEq, false_iff]
    omega

theorem pushSlot_spec {p : Pipe T} (h : WF p) (x : Option T)
    (hlt : p.liveN < p.fifo.length - 1) :
    ∃ q, pushSlot p x = some q ∧ WF q ∧ q.read = p.read ∧ q.open_ = p.open_ ∧
      q.fifo.length = p.fifo.length ∧ q.liveN = p.liveN + 1 ∧
      contents q = contents p ++ [x] := by
  obtain ⟨h2, hwlt, hrlt⟩ := h
  have hw := writeHeadroom_eq ⟨h2, hwlt, hrlt⟩
  have hl := liveN_lt (p := p) ⟨h2, hwlt, hrlt⟩
  have h0 : ¬ p.writeHeadroom = 0 := by omega
  refine ⟨_, by rw [pushSlot, if_neg h0], ?_⟩
  have hfifo : (incrementWrite { p with fifo := p.fifo.set p.write x }).fifo
      = p.fifo.set p.write x := rfl
  have hread : (incrementWrite { p with fifo := p.fifo.set p.write x }).read = p.read := rfl
  have hopen : (incrementWrite { p with fifo := p.fifo.set p.write x }).open_ = p.open_ := rfl
  have hlen : (incrementWrite { p with fifo := p.fifo.set p.write x }).fifo.length
      = p.fifo.length := by
    rw [hfifo, List.length_set]
  have hwr : (incrementWrite { p with fifo := p.fifo.set p.write x }).write
      = (p.write + 1) % p.fifo.length := by
    show (p.write + 1) % (p.fifo.set p.write x).length = (p.write + 1) % p.fifo.length
    rw [List.length_set]
  have hwf : WF (incrementWrite { p with fifo := p.fifo.set p.write x }) := by
    refine ⟨by rw [hlen]; exact h2, ?_, ?_⟩
    · rw [hwr, hlen]
      exact Nat.mod_lt _ (by omega)
    · rw [hread, hlen]
      exact hrlt
  have hwq := write_eq (p := p) ⟨h2, hwlt, hrlt⟩
  have hlive : (incrementWrite { p with fifo := p.fifo.set p.write x }).liveN
      = p.liveN + 1 := by
    apply liveN_unique hwf
    · rw [hlen]; omega
    · rw [hwr, hread, hlen, hwq, Nat.mod_add_mod, Nat.add_assoc]
  refine ⟨hwf, hread, hopen, hlen, hlive, ?_⟩
  unfold contents
  rw [hlive, hfifo, hread, List.length_set, List.range_succ, List.map_append]
  congr 1
  · apply map_range_congr
    intro i hi
    apply getD_set_ne
    intro hcontra
    have hne : (p.read + i) % p.fifo.length = (p.read + p.liveN) % p.fifo.length := by
      rw [← hwq, hcontra]
    have := addModInj (Nat.lt_trans hi hl) hl hne
    omega
  · simp only [List.map_cons, List.map_nil]
    have hidx : (p.read + p.liveN) % p.fifo.length = p.write := hwq.symm
    rw [hidx, getD_set_self p.fifo x none p.write hwlt]

theorem dequeue_none_iff {p : Pipe T} (h : WF p) : p.dequeue = none ↔ p.liveN = 0 := by
  have hr := readHeadroom_eq h
  unfold dequeue
  split
  · simp only [true_iff]
    omega
  · simp only [reduceCtorEq, false_iff]
    omega

theorem isOpen_none_iff {p : Pipe T} (h : WF p) : p.isOpen = none ↔ p.liveN = 0 := by
  have hr := readHeadroom_eq h
  unfold isOpen
  split
  · simp only [true_iff]
    omega
  · simp only [reduceCtorEq, false_iff]
    omega

theorem isOpen_spec {p : Pipe T} (h : WF p) (hpos : 0 < p.liveN) :
    p.isOpen = some ((p.fifo.getD p.read none).isSome, p) := by
  have hr := readHeadroom_eq h
  have h0 : ¬ p.readHeadroom = 0 := by omega
  rw [isOpen, if_neg h0]

theorem dequeue_spec {p : Pipe T} (h : WF p) (hpos : 0 < p.liveN) :
    ∃ q, p.dequeue = some (p.fifo.getD p.read none, q) ∧ WF q ∧
      q.fifo = p.fifo ∧ q.write = p.write ∧ q.open_ = p.open_ ∧
      q.liveN = p.liveN - 1 ∧
      contents p = p.fifo.getD p.read none :: contents q := by
  obtain ⟨h2, hwlt, hrlt⟩ := h
  have hr := readHeadroom_eq (p := p) ⟨h2, hwlt, hrlt⟩
  have hl := liveN_lt (p := p) ⟨h2, hwlt, hrlt⟩
  have h0 : ¬ p.readHeadroom = 0 := by omega
  refine ⟨incrementRead p, by rw [dequeue, if_neg h0], ?_⟩
  obtain ⟨k, hk⟩ : ∃ k, p.liveN = k + 1 := ⟨p.liveN - 1, by omega⟩
  have hfifo : (incrementRead p).fifo = p.fifo := rfl
  have hwr : (incrementRead p).write = p.write := rfl
  have hopen : (incrementRead p).open_ = p.open_ := rfl
  have hrd : (incrementRead p).read = (p.read + 1) % p.fifo.length := rfl
  have hwf : WF (incrementRead p) := by
    refine ⟨h2, hwlt, ?_⟩
    show (p.read + 1) % p.fifo.length < p.fifo.length
    exact Nat.mod_lt _ (by omega)
  have hwq := write_eq (p := p) ⟨h2, hwlt, hrlt⟩
  have hlive : (incrementRead p).liveN = k := by
    apply liveN_unique hwf
    · show k < p.fifo.length
      omega
    · show p.write = ((p.read + 1) % p.fifo.length + k) % p.fifo.length
      rw [Nat.mod_add_mod, hwq, hk]
      congr 1
      omega
  refine ⟨hwf, hfifo, hwr, hopen, by omega, ?_⟩
  unfold contents
  rw [hlive, hfifo, hrd, hk, List.range_succ_eq_map, List.map_cons, List.map_map]
  congr 1
  · congr 1
    rw [Nat.add_zero, Nat.mod_eq_of_lt hrlt]
  · apply map_range_congr
    intro i hi
    simp only [Function.comp_apply, Nat.succ_eq_add_one]
    congr 1
    rw [Nat.mod_add_mod]
    congr 1
    omega

theorem init_spec (T : Type) (n : Nat) (h : 2 ≤ n) :
    ∃ p, init T n = some p ∧ WF p ∧ p.open_ = true ∧ contents p = [] ∧
      p.fifo.length = n ∧ p.liveN = 0 := by
  have hlive : (⟨List.replicate n none, 0, 0, true⟩ : Pipe T).liveN = 0 := by
    show (0 + (List.replicate n (none : Option T)).length - 0) %
      (List.replicate n (none : Option T)).length = 0
    rw [List.length_replicate]
    have he : 0 + n - 0 = n := by omega
    rw [he, Nat.mod_self]
  refine ⟨_, by rw [init, if_pos h], ?_, rfl, ?_, ?_, ?_⟩
  · refine ⟨?_, ?_, ?_⟩ <;> simp [List.length_replicate] <;> omega
  · rw [contents_eq_nil_iff]
    exact hlive
  · simp [List.length_replicate]
  · exact hlive

end Pipe

end Plumbing


namespace Plumbing

namespace Pipe

variable {T : Type}

theorem pushSlot_some_liveN {p : Pipe T} (h : WF p) {x : Option T} {q : Pipe T}
    (he : pushSlot p x = some q) : p.liveN < p.fifo.length - 1 := by
  have hl := liveN_lt h
  have hiff := pushSlot_none_iff h x
  have hne : p.liveN ≠ p.fifo.length - 1 := by
    intro hcontra
    rw [hiff.mpr hcontra] at he
    exact Option.noConfusion he
  omega

theorem dequeue_some_liveN {p : Pipe T} (h : WF p) {vq : Option T × Pipe T}
    (he : p.dequeue = some vq) : 0 < p.liveN := by
  have hiff := dequeue_none_iff h
  have hne : p.liveN ≠ 0 := by
    intro hcontra
    rw [hiff.mpr hcontra] at he
    exact Option.noConfusion he
  omega

end Pipe

/-- Refinement invariant of any interleaved schedule: what went in equals
what came out followed by what is still buffered. -/
theorem run_spec {T : Type} :
    ∀ (acts : List (Act T)) (p st : Pipe T) (outs : List (Option T)),
    Pipe.WF p → run p acts = some (st, outs) →
    Pipe.WF st ∧ Pipe.contents p ++ pushedOf acts = outs ++ Pipe.contents st := by
  intro acts
  induction acts with
  | nil =>
    intro p st outs hwf hrun
    simp only [run, Option.some.injEq, Prod.mk.injEq] at hrun
    obtain ⟨rfl, rfl⟩ := hrun
    exact ⟨hwf, by simp [pushedOf]⟩
  | cons a rest ih =>
    intro p st outs hwf hrun
    cases a with
    | push v =>
      simp only [run] at hrun
      cases he : p.enqueue v with
      | none => rw [he] at hrun; exact Option.noConfusion hrun
      | some q =>
        rw [he] at hrun
        rw [Pipe.enqueue_eq_pushSlot] at he
        have hlt := Pipe.pushSlot_some_liveN hwf he
        obtain ⟨q', heq, hwfq, _, _, _, _, hcont⟩ := Pipe.pushSlot_spec hwf (some v) hlt
        rw [heq] at he
        injection he with he'
        subst he'
        obtain ⟨hwfst, hind⟩ := ih q' st outs hwfq hrun
        refine ⟨hwfst, ?_⟩
        rw [pushedOf, ← hind, hcont]
        simp
    | close =>
      simp only [run] at hrun
      cases he : p.close with
      | none => rw [he] at hrun; exact Option.noConfusion hrun
      | some q =>
        rw [he] at hrun
        rw [Pipe.close_eq_pushSlot] at he
        have hlt := Pipe.pushSlot_some_liveN hwf he
        obtain ⟨q', heq, hwfq, _, _, _, _, hcont⟩ := Pipe.pushSlot_spec hwf none hlt
        rw [heq] at he
        injection he with he'
        subst he'
        obtain ⟨hwfst, hind⟩ := ih q' st outs hwfq hrun
        refine ⟨hwfst, ?_⟩
        rw [pushedOf, ← hind, hcont]
        simp
    | pop =>
      simp only [run] at hrun
      cases he : p.dequeue with
      | none => rw [he] at hrun; exact Option.noConfusion hrun
      | some vq =>
        obtain ⟨v, q⟩ := vq
        rw [he] at hrun
        replace hrun :
            (match run q rest with
              | none => none
              | some (st, outs) => some (st, v :: outs)) = some (st, outs) := hrun
        have hpos := Pipe.dequeue_some_liveN hwf he
        obtain ⟨q', heq, hwfq, _, _, _, _, hdec⟩ := Pipe.dequeue_spec hwf hpos
        rw [he] at heq
        simp only [Option.some.injEq, Prod.mk.injEq] at heq
        obtain ⟨hv, hq⟩ := heq
        subst hv
        rw [← hq] at hdec
        cases hrr : run q rest with
        | none => rw [hrr] at hrun; exact Option.noConfusion hrun
        | some str =>
          rw [hrr] at hrun
          obtain ⟨st', outs'⟩ := str
          simp only [Option.some.injEq, Prod.mk.injEq] at hrun
          obtain ⟨rfl, rfl⟩ := hrun
          obtain ⟨hwfst, hind⟩ := ih q st' outs' (hq ▸ hwfq) hrr
          refine ⟨hwfst, ?_⟩
          rw [pushedOf, hdec]
          simp only [List.cons_append, List.append_assoc]
          rw [hind]
    | query =>
      simp only [run] at hrun
      cases he : p.isOpen with
      | none => rw [he] at hrun; exact Option.noConfusion hrun
      | some bq =>
        rw [he] at hrun
        obtain ⟨hwfst, hind⟩ := ih p st outs hwf hrun
        exact ⟨hwfst, by rw [pushedOf, hind]⟩

/-- Pushing a list of values that fits in the free space succeeds and
appends them, in order, to the buffered contents. -/
theorem pushAll_spec {T : Type} :
    ∀ (vs : List T) (p : Pipe T), Pipe.WF p →
    p.liveN + vs.length ≤ p.fifo.length - 1 →
    ∃ q, pushAll p vs = some q ∧ Pipe.WF q ∧ q.fifo.length = p.fifo.length ∧
      q.liveN = p.liveN + vs.length ∧
      Pipe.contents q = Pipe.contents p ++ vs.map some := by
  intro vs
  induction vs with
  | nil =>
    intro p hwf hcap
    exact ⟨p, rfl, hwf, rfl, by simp, by simp⟩
  | cons v vs ih =>
    intro p hwf hcap
    have hlt : p.liveN < p.fifo.length - 1 := by
      simp only [List.length_cons] at hcap
      omega
    obtain ⟨q, heq, hwfq, hrd, hop, hlen, hlive, hcont⟩ := Pipe.pushSlot_spec hwf (some v) hlt
    have hstep : pushAll p (v :: vs) = pushAll q vs := by
      simp only [pushAll, Pipe.enqueue_eq_pushSlot, heq]
    obtain ⟨r, hr, hwfr, hlenr, hliver, hcontr⟩ := ih q hwfq (by
      simp only [List.length_cons] at hcap
      rw [hlive, hlen]
      omega)
    refine ⟨r, by rw [hstep, hr], hwfr, by rw [hlenr, hlen], ?_, ?_⟩
    · rw [hliver, hlive]
      simp only [List.length_cons]
      omega
    · rw [hcontr, hcont]
      simp

/-- Draining with the has-more/take-next protocol returns exactly the
buffered values and stops at the sentinel, leaving the sentinel buffered. -/
theorem drain_spec {T : Type} :
    ∀ (vs : List T) (p : Pipe T) (fuel : Nat), Pipe.WF p →
    Pipe.contents p = vs.map some ++ [none] → vs.length < fuel →
    ∃ q, drain fuel p = some (vs, q) ∧ Pipe.WF q ∧ Pipe.contents q = [none] := by
  intro vs
  induction vs with
  | nil =>
    intro p fuel hwf hcont hfuel
    obtain ⟨f, rfl⟩ : ∃ f, fuel = f + 1 := ⟨fuel - 1, by omega⟩
    have hpos : 0 < p.liveN := by
      rw [← Pipe.contents_length, hcont]
      simp
    obtain ⟨q, hdq, hwfq, _, _, _, _, hdec⟩ := Pipe.dequeue_spec hwf hpos
    rw [hcont] at hdec
    simp only [List.map_nil, List.nil_append, List.cons.injEq] at hdec
    obtain ⟨hslot, _⟩ := hdec
    have hopen := Pipe.isOpen_spec hwf hpos
    rw [← hslot] at hopen
    simp only [Option.isSome_none] at hopen
    refine ⟨p, ?_, hwf, hcont⟩
    simp only [drain, hopen]
  | cons v vs ih =>
    intro p fuel hwf hcont hfuel
    obtain ⟨f, rfl⟩ : ∃ f, fuel = f + 1 := ⟨fuel - 1, by omega⟩
    have hpos : 0 < p.liveN := by
      rw [← Pipe.contents_length, hcont]
      simp
    obtain ⟨q, hdq, hwfq, _, _, _, _, hdec⟩ := Pipe.dequeue_spec hwf hpos
    rw [hcont] at hdec
    simp only [List.map_cons, List.cons_append, List.cons.injEq] at hdec
    obtain ⟨hslot, hcq⟩ := hdec
    have hopen := Pipe.isOpen_spec hwf hpos
    rw [← hslot] at hopen
    simp only [Option.isSome_some] at hopen
    rw [← hslot] at hdq
    obtain ⟨r, hdr, hwfr, hcr⟩ := ih q f hwfq hcq.symm (by
      simp only [List.length_cons] at hfuel
      omega)
    refine ⟨r, ?_, hwfr, hcr⟩
    simp only [drain, hopen, hdq, hdr]

end Plumbing

namespace Plumbing

theorem connectList_eq_map {A B : Type} :
    ∀ (input : List A) (f : A → B), connectList input f = input.map f
  | [], _ => rfl
  | e :: rest, f => by
    simp only [connectList, List.map_cons, List.cons.injEq, true_and]
    exact connectList_eq_map rest f

theorem voidWorkerRun_eq_map {A E : Type} :
    ∀ (input : List A) (g : A → E), voidWorkerRun input g = input.map g
  | [], _ => rfl
  | e :: rest, g => by
    simp only [voidWorkerRun, List.map_cons, List.cons.injEq, true_and]
    exact voidWorkerRun_eq_map rest g

theorem connect_traits_monadic_eq_monadicOf :
    ∀ (fs : List (Ty → Ty)) (t : Ty),
    connect_traits_monadic t fs = monadicOf (connect_traits_return t fs)
  | [], t => by cases t <;> rfl
  | f :: fs, t => by
    simp only [connect_traits_monadic, connect_traits_return]
    exact connect_traits_monadic_eq_monadicOf fs (f t)

theorem connectMany_eq_map :
    ∀ {A B : Type} (ch : FnChain A B) (input : List A),
    connectMany input ch = input.map (chainApply ch)
  | _, _, FnChain.one f, input => by
    simp only [connectMany, chainApply]
    exact connectList_eq_map input f
  | _, _, FnChain.more f rest, input => by
    simp only [connectMany, chainApply]
    rw [connectMany_eq_map rest, connectList_eq_map, List.map_map]
    rfl

/-- C4: for a stage whose transformation has `void` result type, `connect`
produces a completion handle (`std::future<void>`), not a channel-backed
view, and the worker it starts applies the function to every element of
the source, in source order, end to end — which is what waiting on the
handle waits for. -/
theorem connect_void_future (t : Ty) (f : Ty → Ty) (hf : f t = Ty.void)
    (A E : Type) (input : List A) (g : A → E) :
    connect_traits_monadic t [f] = Monadic.futureVoid ∧
    voidWorkerRun input g = input.map g := by
  constructor
  · have hstep : connect_traits_monadic t [f] = connect_traits_monadic (f t) [] := by
      cases t <;> rfl
    rw [hstep, hf]
    rfl
  · exact voidWorkerRun_eq_map input g

theorem connect_void_future_witness :
    connect_traits_monadic (Ty.base 0) [fun _ => Ty.void] = Monadic.futureVoid ∧
    voidWorkerRun [1, 2] (fun x => x + 1) = [2, 3] :=
  connect_void_future (Ty.base 0) (fun _ => Ty.void) rfl Nat Nat [1, 2] (fun x => x + 1)

/-- C5: the variadic `connect` is the left-to-right fold of two-argument
connects; `operator>>` is exactly the two-argument `connect`; the result
shape of a chain is the single-function rule applied to the type reaching
the last stage (the fold of the type actions); and consequently a chain
maps the source through the composition of its stages. -/
theorem connect_variadic_fold :
    (∀ (A B C : Type) (input : List A) (f : A → B) (rest : FnChain B C),
      connectMany input (FnChain.more f rest) = connectMany (connectList input f) rest) ∧
    (∀ (A B : Type) (input : List A) (f : A → B), opConnect input f = connectList input f) ∧
    (∀ (t : Ty) (fs : List (Ty → Ty)),
      connect_traits_monadic t fs = monadicOf (connect_traits_return t fs)) ∧
    (∀ (A B : Type) (input : List A) (ch : FnChain A B),
      connectMany input ch = input.map (chainApply ch)) := by
  refine ⟨?_, ?_, ?_, ?_⟩
  · intro A B C input f rest
    rfl
  · intro A B input f
    rfl
  · intro t fs
    exact connect_traits_monadic_eq_monadicOf fs t
  · intro A B input ch
    exact connectMany_eq_map ch input

/-- C6: the concrete pipeline scenario — source `[1,2,3,4,5]`, stage f1 =
multiply by 2, stage f2 = label with `x` — yields exactly
`"x2","x4","x6","x8","x10"`, in order; and the same values pushed through
a channel (both as an interleaved capacity-2 schedule, as the two worker
threads of the stages would do, and as a push-then-drain on a roomier
channel) are delivered in that same order by the consumer protocol. -/
theorem pipeline_concrete_scenario :
    connectMany [1, 2, 3, 4, 5]
      (FnChain.more (fun v => v * 2) (FnChain.one (fun v => "x" ++ toString v))) =
      ["x2", "x4", "x6", "x8", "x10"] ∧
    (∃ st, run (⟨[none, none], 0, 0, true⟩ : Pipe String)
      [Act.push "x2", Act.pop, Act.push "x4", Act.pop, Act.push "x6", Act.pop,
       Act.push "x8", Act.pop, Act.push "x10", Act.pop, Act.close, Act.query] =
      some (st, [some "x2", some "x4", some "x6", some "x8", some "x10"])) ∧
    (∃ p q r s, Pipe.init String 9 = some p ∧
      pushAll p ["x2", "x4", "x6", "x8", "x10"] = some q ∧
      Pipe.close q = some r ∧
      drain 6 r = some (["x2", "x4", "x6", "x8", "x10"], s)) :=
  ⟨rfl, ⟨_, rfl⟩, ⟨_, _, _, _, rfl, rfl, rfl, rfl⟩⟩

end Plumbing

namespace Plumbing

/-- C1: in any interleaved schedule of pushes, pops, closes and peeks that
completes (no operation blocks forever), the sequence of dequeued slot
values is a prefix of the sequence written (pushed values, with each close
contributing the sentinel).  Hence the n-th successful pop returns the
n-th successful push, and a pop can observe the sentinel only after every
value pushed before the corresponding close has been popped; with no
close, N pops return exactly the N pushed values v1..vN in order. -/
theorem fifo_order_of_run {T : Type} (n : Nat) (acts : List (Act T))
    (p st : Pipe T) (outs : List (Option T))
    (hmk : Pipe.init T n = some p) (hrun : run p acts = some (st, outs)) :
    (∃ rest, pushedOf acts = outs ++ rest) ∧
    (∀ vs : List T, pushedOf acts = vs.map some → outs.length = vs.length →
      outs = vs.map some) := by
  have h2 : 2 ≤ n := by
    by_contra hc
    rw [Pipe.init, if_neg hc] at hmk
    exact Option.noConfusion hmk
  obtain ⟨p', hmk', hwf, _, hcont, _, _⟩ := Pipe.init_spec T n h2
  rw [hmk'] at hmk
  injection hmk with hp
  subst hp
  obtain ⟨hwfst, hind⟩ := run_spec acts p' st outs hwf hrun
  rw [hcont] at hind
  simp only [List.nil_append] at hind
  constructor
  · exact ⟨Pipe.contents st, hind⟩
  · intro vs hpv hlen
    rw [hpv] at hind
    have hl := congrArg List.length hind
    simp only [List.length_map, List.length_append] at hl
    have hz : (Pipe.contents st).length = 0 := by omega
    have hnil : Pipe.contents st = [] := List.eq_nil_of_length_eq_zero hz
    rw [hnil, List.append_nil] at hind
    exact hind.symm

theorem fifo_order_of_run_witness :
    ∃ rest, pushedOf [Act.push 10, Act.push 20, Act.pop, Act.pop] =
      [some 10, some 20] ++ rest :=
  (fifo_order_of_run 3 [Act.push 10, Act.push 20, Act.pop, Act.pop]
    ⟨[none, none, none], 0, 0, true⟩ ⟨[some 10, some 20, none], 2, 2, true⟩
    [some 10, some 20] rfl rfl).1

/-- C2: pushing v1..vN into a fresh channel, closing it, and then running
the consumer's has-more/take-next protocol yields exactly v1..vN followed
by end-of-stream; every later has-more query still reports end-of-stream
and never yields a value (the sentinel stays buffered, `isOpen` reports
`false`, and re-draining returns nothing). -/
theorem close_terminates_iteration {T : Type} (vs : List T) (n : Nat)
    (hn : vs.length + 2 ≤ n) :
    ∃ p q r s, Pipe.init T n = some p ∧ pushAll p vs = some q ∧
      Pipe.close q = some r ∧ drain (vs.length + 1) r = some (vs, s) ∧
      Pipe.isOpen s = some (false, s) ∧
      (∀ fuel, drain fuel s = none ∨ drain fuel s = some ([], s)) := by
  obtain ⟨p, hmk, hwf, _, hcont, hlen, hlive⟩ := Pipe.init_spec T n (by omega)
  obtain ⟨q, hpush, hwfq, hlenq, hliveq, hcontq⟩ :=
    pushAll_spec vs p hwf (by rw [hlive, hlen]; omega)
  have hltq : q.liveN < q.fifo.length - 1 := by
    rw [hliveq, hlive, hlenq, hlen]
    omega
  obtain ⟨r, hcl, hwfr, _, _, _, _, hcontr⟩ := Pipe.pushSlot_spec hwfq none hltq
  have hcontr' : Pipe.contents r = vs.map some ++ [none] := by
    rw [hcontr, hcontq, hcont]
    simp
  obtain ⟨s, hdr, hwfs, hconts⟩ := drain_spec vs r (vs.length + 1) hwfr hcontr' (by omega)
  have hposs : 0 < s.liveN := by
    rw [← Pipe.contents_length, hconts]
    simp
  obtain ⟨s', hdqs, _, _, _, _, _, hdecs⟩ := Pipe.dequeue_spec hwfs hposs
  rw [hconts] at hdecs
  simp only [List.cons.injEq] at hdecs
  obtain ⟨hslot, _⟩ := hdecs
  have hopens := Pipe.isOpen_spec hwfs hposs
  rw [← hslot] at hopens
  simp only [Option.isSome_none] at hopens
  refine ⟨p, q, r, s, hmk, hpush, by rw [Pipe.close_eq_pushSlot, hcl], hdr, hopens, ?_⟩
  intro fuel
  cases fuel with
  | zero => exact Or.inl rfl
  | succ f =>
    refine Or.inr ?_
    simp only [drain, hopens]

theorem close_terminates_iteration_witness :
    ∃ p q r s, Pipe.init Nat 4 = some p ∧ pushAll p [1, 2] = some q ∧
      Pipe.close q = some r ∧ drain 3 r = some ([1, 2], s) ∧
      Pipe.isOpen s = some (false, s) ∧
      (∀ fuel, drain fuel s = none ∨ drain fuel s = some ([], s)) :=
  close_terminates_iteration [1, 2] 4 (by decide)

/-- C3: the available-entry count (`readHeadroom`) is the modular
difference of the write and read cursors, the free-slot count
(`writeHeadroom`) is capacity − 1 minus it, a well-formed channel buffers
at most capacity − 1 live entries, and a channel holding exactly
capacity − 1 live entries has `writeHeadroom` 0 so a push blocks; after
one pop the push is enabled again. -/
theorem capacity_bound {T : Type} (p : Pipe T) (v : T) (h : Pipe.WF p) :
    Pipe.readHeadroom p = ((p.write + p.fifo.length - p.read) % p.fifo.length : Nat) ∧
    Pipe.writeHeadroom p = (p.fifo.length : Int) - 1 - Pipe.readHeadroom p ∧
    (Pipe.contents p).length ≤ p.fifo.length - 1 ∧
    ((Pipe.contents p).length = p.fifo.length - 1 →
      Pipe.writeHeadroom p = 0 ∧ Pipe.enqueue p v = none ∧
      ∃ w q, Pipe.dequeue p = some (w, q) ∧ ∀ u : T, ∃ r, Pipe.enqueue q u = some r) := by
  have hrh := Pipe.readHeadroom_eq h
  have hwh := Pipe.writeHeadroom_eq h
  have hl := Pipe.liveN_lt h
  refine ⟨hrh, by rw [hwh, hrh], ?_, ?_⟩
  · rw [Pipe.contents_length]
    omega
  · intro hfull
    rw [Pipe.contents_length] at hfull
    refine ⟨by rw [hwh, hfull]; omega, ?_, ?_⟩
    · rw [Pipe.enqueue_eq_pushSlot]
      exact (Pipe.pushSlot_none_iff h (some v)).mpr hfull
    · have hpos : 0 < p.liveN := by omega
      obtain ⟨q, hdq, hwfq, hfq, _, _, hlq, _⟩ := Pipe.dequeue_spec h hpos
      refine ⟨_, q, hdq, ?_⟩
      intro u
      have hlenq : q.fifo.length = p.fifo.length := by rw [hfq]
      have hltq : q.liveN < q.fifo.length - 1 := by
        rw [hlq, hlenq, hfull]
        omega
      obtain ⟨r, hr, _⟩ := Pipe.pushSlot_spec hwfq (some u) hltq
      exact ⟨r, by rw [Pipe.enqueue_eq_pushSlot, hr]⟩

theorem capacity_bound_witness :
    Pipe.enqueue (⟨[some 7, none], 1, 0, true⟩ : Pipe Nat) 9 = none ∧
    ∃ w q, Pipe.dequeue (⟨[some 7, none], 1, 0, true⟩ : Pipe Nat) = some (w, q) ∧
      ∀ u : Nat, ∃ r, Pipe.enqueue q u = some r := by
  have h := capacity_bound (⟨[some 7, none], 1, 0, true⟩ : Pipe Nat) 9 (by decide)
  have h4 := h.2.2.2 (by decide)
  exact ⟨h4.2.1, h4.2.2⟩

end Plumbing

namespace Plumbing

/-- C7: comparing consumer views with `operator==` — the end (no-channel)
view equals itself; a view equals the end marker exactly as its channel's
`isOpen()` reports closed (blocking when `isOpen` blocks); a view equals
another view bound to the same channel; and two views bound to different
channels compare false (in particular whenever they are not both at
end-of-stream). -/
theorem sink_end_equality {T : Type} (heap : Nat → Pipe T) (i j : Nat) (b : Bool) :
    sinkEq heap none none = some true ∧
    sinkEq heap (some i) (some i) = some true ∧
    (Pipe.isOpen (heap i) = some (b, heap i) →
      sinkEq heap (some i) none = some (!b) ∧ sinkEq heap none (some i) = some (!b)) ∧
    (Pipe.isOpen (heap i) = none →
      sinkEq heap (some i) none = none ∧ sinkEq heap none (some i) = none) ∧
    (i ≠ j → sinkEq heap (some i) (some j) = some false) := by
  refine ⟨rfl, by simp [sinkEq], ?_, ?_, ?_⟩
  · intro hob
    constructor <;> simp [sinkEq, hob]
  · intro hob
    constructor <;> simp [sinkEq, hob]
  · intro hij
    have hne : (some i : SinkH) ≠ some j := by simpa using hij
    simp [sinkEq, hne]

theorem sink_end_equality_witness :
    sinkEq (fun _ => (⟨[some 5, none], 1, 0, true⟩ : Pipe Nat)) (some 0) none =
      some false ∧
    sinkEq (fun _ => (⟨[some 5, none], 1, 0, true⟩ : Pipe Nat)) (some 0) (some 1) =
      some false := by
  have h := sink_end_equality (fun _ => (⟨[some 5, none], 1, 0, true⟩ : Pipe Nat)) 0 1 true
  exact ⟨(h.2.2.1 rfl).1, h.2.2.2.2 (by decide)⟩

/-- C8: `isOpen` consumes no data — it blocks exactly while nothing is
readable, otherwise reports whether the next readable slot holds a value,
returning the pipe unchanged, so that a subsequent `dequeue` still returns
that same next element (the head of the buffered contents). -/
theorem isOpen_consumes_nothing {T : Type} (p : Pipe T) (h : Pipe.WF p) :
    (Pipe.isOpen p = none ↔ Pipe.contents p = []) ∧
    ∀ b q, Pipe.isOpen p = some (b, q) → q = p ∧
      ∃ v r, Pipe.dequeue p = some (v, r) ∧ b = v.isSome ∧
        (Pipe.contents p).head? = some v := by
  constructor
  · rw [Pipe.isOpen_none_iff h, ← Pipe.contents_eq_nil_iff]
  · intro b q hob
    have hpos : 0 < p.liveN := by
      by_contra hc
      have hz : p.liveN = 0 := by omega
      rw [(Pipe.isOpen_none_iff h).mpr hz] at hob
      exact Option.noConfusion hob
    have hspec := Pipe.isOpen_spec h hpos
    rw [hob] at hspec
    simp only [Option.some.injEq, Prod.mk.injEq] at hspec
    obtain ⟨hb, hq⟩ := hspec
    obtain ⟨r, hdq, _, _, _, _, _, hdec⟩ := Pipe.dequeue_spec h hpos
    refine ⟨hq, p.fifo.getD p.read none, r, hdq, hb, ?_⟩
    rw [hdec]
    rfl

theorem isOpen_consumes_nothing_witness :
    (⟨[some 3, none], 1, 0, true⟩ : Pipe Nat) =
      (⟨[some 3, none], 1, 0, true⟩ : Pipe Nat) ∧
    ∃ v r, Pipe.dequeue (⟨[some 3, none], 1, 0, true⟩ : Pipe Nat) = some (v, r) ∧
      true = v.isSome ∧
      (Pipe.contents (⟨[some 3, none], 1, 0, true⟩ : Pipe Nat)).head? = some v :=
  (isOpen_consumes_nothing (⟨[some 3, none], 1, 0, true⟩ : Pipe Nat)
    (by decide)).2 true (⟨[some 3, none], 1, 0, true⟩ : Pipe Nat) rfl

/-- C9: constructing a channel with capacity 0 or 1 (any capacity < 2) is
rejected at construction (the `assert` contract); any capacity ≥ 2 yields
an open, empty, well-formed channel of that capacity. -/
theorem capacity_minimum_enforced (T : Type) (n : Nat) :
    (n < 2 → Pipe.init T n = none) ∧
    (2 ≤ n → ∃ p, Pipe.init T n = some p ∧ p.open_ = true ∧ Pipe.WF p ∧
      Pipe.contents p = [] ∧ p.fifo.length = n) := by
  constructor
  · intro hlt
    rw [Pipe.init, if_neg (by omega)]
  · intro hge
    obtain ⟨p, hmk, hwf, hop, hcont, hlen, _⟩ := Pipe.init_spec T n hge
    exact ⟨p, hmk, hop, hwf, hcont, hlen⟩

theorem capacity_minimum_enforced_witness :
    (Pipe.init Nat 0 = none ∧ Pipe.init Nat 1 = none) ∧
    ∃ p, Pipe.init Nat 2 = some p ∧ p.open_ = true ∧ Pipe.WF p ∧
      Pipe.contents p = [] ∧ p.fifo.length = 2 :=
  ⟨⟨(capacity_minimum_enforced Nat 0).1 (by decide),
    (capacity_minimum_enforced Nat 1).1 (by decide)⟩,
   (capacity_minimum_enforced Nat 2).2 (by decide)⟩

/-- C10: both `Sink` increments are identities returning the view
unchanged, while each dereference removes and returns the next element of
the underlying channel; two consecutive dereferences with no intervening
increment therefore return the elements at positions 0 and 1 of the
buffered stream. -/
theorem sink_increment_noop {T : Type} (heap : Nat → Pipe T) (i : Nat)
    (h : Pipe.WF (heap i)) (a b : Option T) (l : List (Option T))
    (hc : Pipe.contents (heap i) = a :: b :: l) :
    (∀ s : SinkH, sinkInc s = s ∧ sinkIncPost s = s) ∧
    ∃ q r, sinkStar heap (some i) = some (a, Function.update heap i q) ∧
      sinkStar (Function.update heap i q) (some i) =
        some (b, Function.update (Function.update heap i q) i r) ∧
      Pipe.contents q = b :: l ∧ Pipe.contents r = l := by
  refine ⟨fun s => ⟨rfl, rfl⟩, ?_⟩
  have hpos : 0 < (heap i).liveN := by
    rw [← Pipe.contents_length, hc]
    simp
  obtain ⟨q, hdq, hwfq, _, _, _, _, hdec⟩ := Pipe.dequeue_spec h hpos
  rw [hc] at hdec
  simp only [List.cons.injEq] at hdec
  obtain ⟨ha, hcq⟩ := hdec
  have hposq : 0 < q.liveN := by
    rw [← Pipe.contents_length, ← hcq]
    simp
  obtain ⟨r, hdq2, hwfr, _, _, _, _, hdec2⟩ := Pipe.dequeue_spec hwfq hposq
  rw [← hcq] at hdec2
  simp only [List.cons.injEq] at hdec2
  obtain ⟨hb, hcr⟩ := hdec2
  have hu : Function.update heap i q i = q := Function.update_same i q heap
  refine ⟨q, r, ?_, ?_, hcq.symm, hcr.symm⟩
  · simp only [sinkStar, hdq, ← ha]
  · simp only [sinkStar, hu, hdq2, ← hb]

theorem sink_increment_noop_witness :
    (∀ s : SinkH, sinkInc s = s ∧ sinkIncPost s = s) ∧
    ∃ q r, sinkStar (fun _ => (⟨[some 1, some 2, none, none], 2, 0, true⟩ : Pipe Nat))
        (some 0) =
        some (some 1,
          Function.update (fun _ => (⟨[some 1, some 2, none, none], 2, 0, true⟩ : Pipe Nat)) 0 q) ∧
      sinkStar (Function.update
          (fun _ => (⟨[some 1, some 2, none, none], 2, 0, true⟩ : Pipe Nat)) 0 q) (some 0) =
        some (some 2,
          Function.update (Function.update
            (fun _ => (⟨[some 1, some 2, none, none], 2, 0, true⟩ : Pipe Nat)) 0 q) 0 r) ∧
      Pipe.contents q = [some 2] ∧ Pipe.contents r = [] :=
  sink_increment_noop (fun _ => (⟨[some 1, some 2, none, none], 2, 0, true⟩ : Pipe Nat))
    0 (by decide) (some 1) (some 2) [] (by decide)

end Plumbing
